import Mathlib

/-
Verification of the remill hotpatch linker (src/src/example.cpp) and the
executable-path helper (src/src/exepath.hpp).

The embedding models an LLVM module as a container of named global-variable
symbols and function symbols, each carrying an abstract type identifier and an
abstract definition identifier, plus the target metadata (data layout string
and target triple).  Symbol names model std::string contents as lists of
characters, so that prefix tests and suffix appends are ordinary list
operations.
-/

namespace RemillHotpatch

/-- Names model C++ std::string contents as lists of characters. -/
abbrev Name := List Char

/-- Embedding of a global symbol of an LLVM module (llvm::GlobalVariable or
llvm::Function): its name, an abstract type identifier and an abstract
identifier of its definition body. -/
structure Sym where
  name : Name
  ty : Nat
  defn : Nat
deriving DecidableEq, Repr

/-- Embedding of llvm::Module: the list of global variables (iterated by
Module::globals), the list of functions, and the target metadata set by
setDataLayout / setTargetTriple. -/
structure Module where
  globals : List Sym
  funcs : List Sym
  dataLayout : String
  triple : String
deriving DecidableEq, Repr

/-- The naming-convention marker of the source: the literal "ISEL_" used in
the check globalName.rfind("ISEL_", 0) == 0. -/
def iselTag : Name := "ISEL_".toList

/-- The fixed suffix appended by the rename, the literal "_original". -/
def origSuffix : Name := "_original".toList

/-- Embedding of the check globalName.rfind("ISEL_", 0) == 0 (starts-with). -/
def isIselName (n : Name) : Bool := iselTag.isPrefixOf n

/-- First symbol of the list carrying the given name, if any. -/
def findByName : List Sym → Name → Option Sym
  | [], _ => none
  | s :: rest, n => if s.name = n then some s else findByName rest n

/-- Embedding of llvm::Module::getGlobalVariable: looks up global variables
only, never functions. -/
def getGlobalVariable (m : Module) (n : Name) : Option Sym :=
  findByName m.globals n

/-- Resolving a name in a module's symbol table (global variables and
functions share one namespace). -/
def resolveSym (m : Module) (n : Name) : Option Sym :=
  match findByName m.globals n with
  | some s => some s
  | none => findByName m.funcs n

/-- All symbols of a module. -/
def moduleSyms (m : Module) : List Sym := m.globals ++ m.funcs

/-- All symbol names of a module. -/
def moduleNames (m : Module) : List Name := (moduleSyms m).map Sym.name

/-- The module holds a symbol (of either kind) with the given name. -/
abbrev HasName (m : Module) (n : Name) : Prop := n ∈ moduleNames m

/-- Invariant I1 of the spec: symbol names are unique within a module. -/
abbrev NamesUnique (m : Module) : Prop := (moduleNames m).Nodup

/-- Rename the first symbol of the list carrying the old name (embedding of
setName on the symbol returned by getGlobalVariable; LLVM name uniqueness
makes the first match the only match). -/
def renameFirst : List Sym → Name → Name → List Sym
  | [], _, _ => []
  | s :: rest, o, n =>
    if s.name = o then { s with name := n } :: rest
    else s :: renameFirst rest o n

/-- Rename a global variable of the module in place. -/
def setGlobalName (m : Module) (o n : Name) : Module :=
  { m with globals := renameFirst m.globals o n }

/-- One iteration of the rename loop of hotpatchRemill (lines 62-73 of
example.cpp): acc is the base module together with the list of names printed
by the "Hotpatching: N" notices so far, g is the current patch global. -/
def resolveStep (acc : Module × List Name) (g : Sym) : Module × List Name :=
  if isIselName g.name then
    match getGlobalVariable acc.1 g.name with
    | some _ =>
      (setGlobalName acc.1 g.name (g.name ++ origSuffix), acc.2 ++ [g.name])
    | none => acc
  else acc

/-- The symbol collision resolver: the full rename loop over the patch
module's global variables, returning the mutated base module and the list of
names for which a notice was emitted. -/
def resolveCollisions (base patch : Module) : Module × List Name :=
  patch.globals.foldl resolveStep (base, [])

/-- Modelled from the spec: llvm::Linker::linkModules with OverrideFromSrc is
an external dependency, not code of this repository.  Per section 4.4 it
merges all symbols of the source (patch) module into the destination (base)
module, the source definition replacing any same-named destination symbol,
and fails (LinkError) when the merge cannot complete, e.g. on an
irreconcilable type mismatch for a colliding name.  On failure the
destination is left as the caller passed it (the partial state produced by
the rename step). -/
def linkModules (dst src : Module) : Option Module :=
  if ∃ d ∈ moduleSyms dst, ∃ s ∈ moduleSyms src, d.name = s.name ∧ d.ty ≠ s.ty
  then none
  else some
    { globals :=
        dst.globals.filter (fun s => decide (s.name ∉ moduleNames src))
          ++ src.globals
      funcs :=
        dst.funcs.filter (fun s => decide (s.name ∉ moduleNames src))
          ++ src.funcs
      dataLayout := dst.dataLayout
      triple := dst.triple }

/-- Outcome of a hotpatch call, per the error taxonomy of the spec.  The C++
function reports all of these as the single boolean false; the constructor
records which return statement produced it. -/
inductive Outcome
  | notFound
  | parseError
  | linkError
  | ok
deriving DecidableEq, Repr

/-- Observable actions of a hotpatch call, in the order the code performs
them: the metadata overwrite (lines 57-58), each rename (line 69), and the
call to linkModules (line 77). -/
inductive Event
  | conform
  | renameEvt (n : Name)
  | linkAttempt
deriving DecidableEq, Repr

/-- The external world of a hotpatch call: std::filesystem::exists and the
result of llvm::parseIRFile for a path (none models a parse failure). -/
structure FS where
  pathExists : String → Bool
  parse : String → Option Module

/-- The target conformance adjuster (lines 57-58): overwrites the patch
module's data layout and target triple with the base module's values; the
base module is returned unchanged. -/
def conformStep (base patch : Module) : Module × Module :=
  (base, { patch with dataLayout := base.dataLayout, triple := base.triple })

/-- The body of hotpatchRemill after a successful parse: conform the patch
metadata (lines 57-58), run the rename loop (lines 62-73), then attempt the
link (lines 77-81). -/
def hotpatchCore (base patch0 : Module) : Outcome × Module × List Event :=
  let bp := conformStep base patch0
  let rp := resolveCollisions bp.1 bp.2
  match linkModules rp.1 bp.2 with
  | none =>
    (Outcome.linkError, rp.1,
      Event.conform :: (rp.2.map Event.renameEvt ++ [Event.linkAttempt]))
  | some merged =>
    (Outcome.ok, merged,
      Event.conform :: (rp.2.map Event.renameEvt ++ [Event.linkAttempt]))

/-- Embedding of hotpatchRemill (example.cpp lines 40-84), additionally
returning the outcome constructor and the trace of performed actions. -/
def hotpatchRun (fs : FS) (base : Module) (path : String) :
    Outcome × Module × List Event :=
  if fs.pathExists path then
    match fs.parse path with
    | none => (Outcome.parseError, base, [])
    | some patch0 => hotpatchCore base patch0
  else (Outcome.notFound, base, [])

/-- The boolean-result view of hotpatchRemill exactly as the C++ signature
has it: true on success, false on any failure, together with the base module
as left behind by the call. -/
def hotpatchRemill (fs : FS) (base : Module) (path : String) : Bool × Module :=
  let r := hotpatchRun fs base path
  (decide (r.1 = Outcome.ok), r.2.1)

/-- The default hotpatch location computed by main (line 106):
executableDir() / "helpers/x86_64/RemillHotpatch.bc". -/
def defaultHotpatchPath (exeDir : String) : String :=
  exeDir ++ "/helpers/x86_64/RemillHotpatch.bc"

/-- The path main settles on (lines 106-109): argv[1] when argc > 1,
otherwise the default location. -/
def chosenHotpatchPath (exeDir : String) (argv : List String) : String :=
  match argv with
  | _ :: a :: _ => a
  | _ => defaultHotpatchPath exeDir

/-- Embedding of the patching section of main (lines 111-119): main checks
std::filesystem::exists itself and only then calls hotpatchRemill; in either
case it continues with the (possibly patched) semantics module. -/
def mainApplyHotpatch (fs : FS) (semantics : Module) (exeDir : String)
    (argv : List String) : Module :=
  let p := chosenHotpatchPath exeDir argv
  if fs.pathExists p then (hotpatchRemill fs semantics p).2 else semantics

/-- Cache state of the two C++ function-local statics in exepath.hpp. -/
structure ExeCache where
  pathCache : Option String
  dirCache : Option String
deriving DecidableEq, Repr

/-- Parent directory of a path, modelling std::filesystem::path::parent_path
on the string representation: everything before the last separator. -/
def parentPath (p : String) : String :=
  String.mk (((p.toList.reverse.dropWhile (fun ch => ch != '/')).drop 1).reverse)

/-- Embedding of executablePath(): the static local is initialised from the
underlying platform lookup on first call (impl t gives the lookup's answer at
time t, allowing it to vary between calls) and returned from the cache ever
after. -/
def executablePathCall (impl : Nat → String) (t : Nat) (c : ExeCache) :
    String × ExeCache :=
  match c.pathCache with
  | some p => (p, c)
  | none => (impl t, { c with pathCache := some (impl t) })

/-- Embedding of executableDir(): its own static local caches
executablePath().parent_path() on first call. -/
def executableDirCall (impl : Nat → String) (t : Nat) (c : ExeCache) :
    String × ExeCache :=
  match c.dirCache with
  | some d => (d, c)
  | none =>
    let pc := executablePathCall impl t c
    (parentPath pc.1, { pc.2 with dirCache := some (parentPath pc.1) })

/-- A call made during a process run, at an abstract time t. -/
inductive ExeCall
  | pathCall (t : Nat)
  | dirCall (t : Nat)
deriving DecidableEq, Repr

/-- Run a sequence of calls, threading the static caches, and record each
call's result. -/
def runExeCalls (impl : Nat → String) :
    List ExeCall → ExeCache → List (ExeCall × String)
  | [], _ => []
  | ExeCall.pathCall t :: rest, c =>
    let r := executablePathCall impl t c
    (ExeCall.pathCall t, r.1) :: runExeCalls impl rest r.2
  | ExeCall.dirCall t :: rest, c =>
    let r := executableDirCall impl t c
    (ExeCall.dirCall t, r.1) :: runExeCalls impl rest r.2

/-- Results of the executablePath() calls of a run. -/
def pathResults (rs : List (ExeCall × String)) : List String :=
  (rs.filter (fun r => match r.1 with
    | ExeCall.pathCall _ => true
    | ExeCall.dirCall _ => false)).map Prod.snd

/-- Results of the executableDir() calls of a run. -/
def dirResults (rs : List (ExeCall × String)) : List String :=
  (rs.filter (fun r => match r.1 with
    | ExeCall.pathCall _ => false
    | ExeCall.dirCall _ => true)).map Prod.snd

/-- Cache state at process start: both statics uninitialised. -/
def emptyCache : ExeCache := { pathCache := none, dirCache := none }

/-- Renaming applied to a base global by a full resolver run over the patch
globals gs, under the freshness side conditions: renamed exactly when some
selector-named patch global carries its name. -/
def rnBy (gs : List Sym) (s : Sym) : Sym :=
  if ∃ g ∈ gs, isIselName g.name = true ∧ g.name = s.name
  then { s with name := s.name ++ origSuffix }
  else s

/-- The module holds a global variable with the given name. -/
def hasGlobalNamed (m : Module) (n : Name) : Bool :=
  m.globals.any (fun s => s.name == n)

/-- Pointwise relation between a base global before and after a resolver run
over patch globals drawn from P: type and definition ids never change, and a
changed symbol was selector-named and now carries the suffixed form of a
selector-named patch global's name. -/
def StepRel (P : List Sym) (s t : Sym) : Prop :=
  t.ty = s.ty ∧ t.defn = s.defn ∧
    (t = s ∨
      (isIselName s.name = true ∧
        ∃ g ∈ P, isIselName g.name = true ∧ t.name = g.name ++ origSuffix))

/-- A patch global that triggers a rename against module m: selector-named
and colliding with a global variable of m. -/
def selHit (m : Module) (g : Sym) : Bool :=
  isIselName g.name && hasGlobalNamed m g.name

/-- Concrete data: a base module that already carries a symbol under the
suffixed name ISEL_X_original next to the selector ISEL_X. -/
def baseC1 : Module :=
  { globals :=
      [{ name := "ISEL_X_original".toList, ty := 0, defn := 7 },
       { name := "ISEL_X".toList, ty := 0, defn := 5 }]
    funcs := []
    dataLayout := "L"
    triple := "T" }

/-- Concrete data: a patch module overriding the selector ISEL_X. -/
def patchC1 : Module :=
  { globals := [{ name := "ISEL_X".toList, ty := 0, defn := 9 }]
    funcs := []
    dataLayout := "P"
    triple := "Q" }

/-- Concrete filesystem for the C1 counterexample: the patch file exists and
parses to patchC1. -/
def fsC1 : FS := { pathExists := fun _ => true, parse := fun _ => some patchC1 }

/-- Concrete data: a plain base module holding only the selector ISEL_X. -/
def baseW1 : Module :=
  { globals := [{ name := "ISEL_X".toList, ty := 0, defn := 5 }]
    funcs := []
    dataLayout := "L"
    triple := "T" }

/-- Concrete data: a patch module overriding ISEL_X, no suffixed names. -/
def patchW1 : Module :=
  { globals := [{ name := "ISEL_X".toList, ty := 0, defn := 9 }]
    funcs := []
    dataLayout := "P"
    triple := "Q" }

/-- Concrete filesystem whose patch file exists and parses to patchW1. -/
def fsW1 : FS := { pathExists := fun _ => true, parse := fun _ => some patchW1 }

/-- Concrete filesystem with no file at any path. -/
def fsC2 : FS := { pathExists := fun _ => false, parse := fun _ => none }

/-- Concrete data: a base module whose ISEL_F symbol is a function. -/
def baseC3 : Module :=
  { globals := []
    funcs := [{ name := "ISEL_F".toList, ty := 0, defn := 2 }]
    dataLayout := "L"
    triple := "T" }

/-- Concrete data: a patch module whose ISEL_F symbol is a function. -/
def patchC3 : Module :=
  { globals := []
    funcs := [{ name := "ISEL_F".toList, ty := 0, defn := 1 }]
    dataLayout := "P"
    triple := "Q" }

/-- Concrete data: a base module with a non-selector global and a selector. -/
def baseW5 : Module :=
  { globals :=
      [{ name := "helper".toList, ty := 1, defn := 3 },
       { name := "ISEL_X".toList, ty := 0, defn := 5 }]
    funcs := []
    dataLayout := "L"
    triple := "T" }

/-- Concrete data: a patch module overriding both the non-selector and the
selector, with matching types. -/
def patchW5 : Module :=
  { globals :=
      [{ name := "helper".toList, ty := 1, defn := 4 },
       { name := "ISEL_X".toList, ty := 0, defn := 9 }]
    funcs := []
    dataLayout := "P"
    triple := "Q" }

/-- Concrete filesystem whose patch file exists and parses to patchW5. -/
def fsW5 : FS := { pathExists := fun _ => true, parse := fun _ => some patchW5 }

/-- Concrete data: a base module with a selector and a non-selector global
whose type clashes with the patch. -/
def baseW6 : Module :=
  { globals :=
      [{ name := "ISEL_X".toList, ty := 0, defn := 5 },
       { name := "helper".toList, ty := 1, defn := 6 }]
    funcs := []
    dataLayout := "L"
    triple := "T" }

/-- Concrete data: a patch module whose non-selector global helper has an
irreconcilable type, making the link fail after the rename ran. -/
def patchW6 : Module :=
  { globals :=
      [{ name := "ISEL_X".toList, ty := 0, defn := 9 },
       { name := "helper".toList, ty := 2, defn := 7 }]
    funcs := []
    dataLayout := "P"
    triple := "Q" }

/-- Concrete filesystem whose patch file exists and parses to patchW6. -/
def fsW6 : FS := { pathExists := fun _ => true, parse := fun _ => some patchW6 }

/-- Concrete data: a base module holding ISEL_X but nothing named
ISEL_X_original. -/
def baseC7 : Module :=
  { globals := [{ name := "ISEL_X".toList, ty := 0, defn := 1 }]
    funcs := []
    dataLayout := "L"
    triple := "T" }

/-- Concrete data: a patch module carrying both the selector ISEL_X and a
selector literally named ISEL_X_original. -/
def patchC7 : Module :=
  { globals :=
      [{ name := "ISEL_X".toList, ty := 0, defn := 2 },
       { name := "ISEL_X_original".toList, ty := 0, defn := 3 }]
    funcs := []
    dataLayout := "P"
    triple := "Q" }

/-- Concrete data: a base module without the selector ISEL_Y. -/
def baseW7 : Module :=
  { globals := [{ name := "other".toList, ty := 0, defn := 1 }]
    funcs := []
    dataLayout := "L"
    triple := "T" }

/-- Concrete data: a patch module introducing the new selector ISEL_Y. -/
def patchW7 : Module :=
  { globals := [{ name := "ISEL_Y".toList, ty := 0, defn := 2 }]
    funcs := []
    dataLayout := "P"
    triple := "Q" }

/-- Concrete filesystem where the patch file exists but does not parse. -/
def fsC8 : FS := { pathExists := fun _ => true, parse := fun _ => none }

/-- Concrete platform lookup whose answer changes over time, to exhibit that
the static caches still pin the first answer. -/
def implW : Nat → String := fun t => if t = 0 then "/opt/app/exe" else "/other/exe"

/-- Concrete call sequence: two executablePath() calls then two
executableDir() calls, at distinct times. -/
def callsW : List ExeCall :=
  [ExeCall.pathCall 0, ExeCall.pathCall 1, ExeCall.dirCall 2, ExeCall.dirCall 3]

/-- Two booleans agreeing as propositions are equal. -/
theorem boolEqOfIff {a b : Bool} (h : a = true ↔ b = true) : a = b := by
  cases a <;> cases b <;> simp_all

/-- A failed lookup means no list element carries the name. -/
theorem findByName_eq_none {l : List Sym} {n : Name} :
    findByName l n = none ↔ ∀ s ∈ l, s.name ≠ n := by
  induction l with
  | nil => simp [findByName]
  | cons a rest ih =>
    by_cases h : a.name = n
    · simp [findByName, if_pos h, h]
    · simp only [findByName, if_neg h, ih, List.mem_cons]
      constructor
      · rintro hall s (rfl | hs)
        · exact h
        · exact hall s hs
      · intro hall s hs
        exact hall s (Or.inr hs)

/-- A successful lookup returns a member carrying the name. -/
theorem findByName_eq_some {l : List Sym} {n : Name} {s : Sym}
    (h : findByName l n = some s) : s ∈ l ∧ s.name = n := by
  induction l with
  | nil => cases h
  | cons a rest ih =>
    by_cases ha : a.name = n
    · rw [findByName, if_pos ha] at h
      obtain rfl := Option.some.inj h
      exact ⟨List.mem_cons_self .., ha⟩
    · rw [findByName, if_neg ha] at h
      obtain ⟨hmem, hn⟩ := ih h
      exact ⟨List.mem_cons_of_mem _ hmem, hn⟩

/-- Under unique names, lookup finds any member carrying the name. -/
theorem findByName_unique {l : List Sym} {n : Name} {s : Sym}
    (hu : (l.map Sym.name).Nodup) (hs : s ∈ l) (hn : s.name = n) :
    findByName l n = some s := by
  induction l with
  | nil => cases hs
  | cons a rest ih =>
    simp only [List.map_cons, List.nodup_cons, List.mem_map] at hu
    rcases List.mem_cons.mp hs with rfl | hmem
    · rw [findByName, if_pos hn]
    · have hne : a.name ≠ n := by
        intro h
        exact hu.1 ⟨s, hmem, by rw [hn, h]⟩
      rw [findByName, if_neg hne]
      exact ih hu.2 hmem

/-- Lookup over an append skips a block with no match. -/
theorem findByName_append_none {l₁ l₂ : List Sym} {n : Name}
    (h : findByName l₁ n = none) :
    findByName (l₁ ++ l₂) n = findByName l₂ n := by
  induction l₁ with
  | nil => rfl
  | cons a rest ih =>
    by_cases ha : a.name = n
    · rw [findByName, if_pos ha] at h; cases h
    · rw [findByName, if_neg ha] at h
      rw [List.cons_append, findByName, if_neg ha]
      exact ih h

/-- Lookup over an append returns an early match. -/
theorem findByName_append_some {l₁ l₂ : List Sym} {n : Name} {s : Sym}
    (h : findByName l₁ n = some s) :
    findByName (l₁ ++ l₂) n = some s := by
  induction l₁ with
  | nil => cases h
  | cons a rest ih =>
    by_cases ha : a.name = n
    · rw [findByName, if_pos ha] at h
      rw [List.cons_append, findByName, if_pos ha]
      exact h
    · rw [findByName, if_neg ha] at h
      rw [List.cons_append, findByName, if_neg ha]
      exact ih h

/-- Lookup misses a filtered block whose matches are all dropped. -/
theorem findByName_filter_none {l : List Sym} {q : Sym → Bool} {n : Name}
    (h : ∀ s ∈ l, s.name = n → q s = false) :
    findByName (l.filter q) n = none := by
  apply findByName_eq_none.mpr
  intro s hs hn
  have hmem := List.mem_filter.mp hs
  have := h s hmem.1 hn
  rw [this] at hmem
  exact Bool.false_ne_true hmem.2

/-- hasGlobalNamed agrees with membership among the global names. -/
theorem hasGlobalNamed_iff {m : Module} {n : Name} :
    hasGlobalNamed m n = true ↔ n ∈ m.globals.map Sym.name := by
  unfold hasGlobalNamed
  rw [List.any_eq_true]
  constructor
  · rintro ⟨s, hs, h⟩
    exact List.mem_map.mpr ⟨s, hs, by simpa using h⟩
  · rintro h
    rcases List.mem_map.mp h with ⟨s, hs, hn⟩
    exact ⟨s, hs, by simpa using hn⟩

/-- Module names split into global names and function names. -/
theorem moduleNames_eq (m : Module) :
    moduleNames m = m.globals.map Sym.name ++ m.funcs.map Sym.name := by
  unfold moduleNames moduleSyms
  exact List.map_append Sym.name m.globals m.funcs

/-- Composition of two pointwise relations along a middle list. -/
theorem forallTwoComp {α β γ : Type} {R : α → β → Prop} {S : β → γ → Prop}
    {l₁ : List α} {l₂ : List β} {l₃ : List γ}
    (h₁ : List.Forall₂ R l₁ l₂) (h₂ : List.Forall₂ S l₂ l₃) :
    List.Forall₂ (fun a c => ∃ b, R a b ∧ S b c) l₁ l₃ := by
  induction h₁ generalizing l₃ with
  | nil => cases h₂; exact List.Forall₂.nil
  | cons hab h ih =>
    cases h₂ with
    | cons hbc h' => exact List.Forall₂.cons ⟨_, hab, hbc⟩ (ih h')

/-- A member of the left list of a pointwise relation has a related member
on the right. -/
theorem forallTwoMemLeft {α β : Type} {R : α → β → Prop} {l : List α}
    {l' : List β} (h : List.Forall₂ R l l') {a : α} (ha : a ∈ l) :
    ∃ b ∈ l', R a b := by
  induction h with
  | nil => cases ha
  | cons hab h ih =>
    rcases List.mem_cons.mp ha with rfl | ha'
    · exact ⟨_, List.mem_cons_self .., hab⟩
    · rcases ih ha' with ⟨b, hb, hr⟩
      exact ⟨b, List.mem_cons_of_mem _ hb, hr⟩

/-- A member of the right list of a pointwise relation has a related member
on the left. -/
theorem forallTwoMemRight {α β : Type} {R : α → β → Prop} {l : List α}
    {l' : List β} (h : List.Forall₂ R l l') {b : β} (hb : b ∈ l') :
    ∃ a ∈ l, R a b := by
  induction h with
  | nil => cases hb
  | cons hab h ih =>
    rcases List.mem_cons.mp hb with rfl | hb'
    · exact ⟨_, List.mem_cons_self .., hab⟩
    · rcases ih hb' with ⟨a, ha, hr⟩
      exact ⟨a, List.mem_cons_of_mem _ ha, hr⟩

/-- renameFirst relates the list pointwise: an entry either stays or, when it
carried the old name, now carries the new name. -/
theorem renameFirst_rel (l : List Sym) (o n : Name) :
    List.Forall₂ (fun s t => t = s ∨ (s.name = o ∧ t = { s with name := n }))
      l (renameFirst l o n) := by
  induction l with
  | nil => exact List.Forall₂.nil
  | cons s rest ih =>
    by_cases h : s.name = o
    · unfold renameFirst
      rw [if_pos h]
      exact List.Forall₂.cons (Or.inr ⟨h, rfl⟩)
        (List.forall₂_same.mpr fun x _ => Or.inl rfl)
    · unfold renameFirst
      rw [if_neg h]
      exact List.Forall₂.cons (Or.inl rfl) ih

/-- Membership after renameFirst: an entry of the result was either already
present or is the renamed form of a present entry carrying the old name. -/
theorem mem_renameFirst {l : List Sym} {o n : Name} {t : Sym}
    (ht : t ∈ renameFirst l o n) :
    t ∈ l ∨ ∃ s ∈ l, s.name = o ∧ t = { s with name := n } := by
  induction l with
  | nil => cases ht
  | cons s rest ih =>
    unfold renameFirst at ht
    by_cases h : s.name = o
    · rw [if_pos h] at ht
      rcases List.mem_cons.mp ht with rfl | h'
      · exact Or.inr ⟨s, List.mem_cons_self .., h, rfl⟩
      · exact Or.inl (List.mem_cons_of_mem _ h')
    · rw [if_neg h] at ht
      rcases List.mem_cons.mp ht with rfl | h'
      · exact Or.inl (List.mem_cons_self ..)
      · rcases ih h' with h'' | ⟨u, hu, h1, h2⟩
        · exact Or.inl (List.mem_cons_of_mem _ h'')
        · exact Or.inr ⟨u, List.mem_cons_of_mem _ hu, h1, h2⟩

/-- One resolver iteration never touches functions or target metadata. -/
theorem resolveStep_meta (acc : Module × List Name) (g : Sym) :
    (resolveStep acc g).1.funcs = acc.1.funcs ∧
    (resolveStep acc g).1.dataLayout = acc.1.dataLayout ∧
    (resolveStep acc g).1.triple = acc.1.triple := by
  unfold resolveStep setGlobalName
  split
  · split <;> simp
  · simp

/-- The whole resolver run never touches functions or target metadata. -/
theorem resolveFold_meta (gs : List Sym) :
    ∀ acc : Module × List Name,
      (gs.foldl resolveStep acc).1.funcs = acc.1.funcs ∧
      (gs.foldl resolveStep acc).1.dataLayout = acc.1.dataLayout ∧
      (gs.foldl resolveStep acc).1.triple = acc.1.triple := by
  induction gs with
  | nil => intro acc; exact ⟨rfl, rfl, rfl⟩
  | cons g gs ih =>
    intro acc
    have h := resolveStep_meta acc g
    have h2 := ih (resolveStep acc g)
    simp only [List.foldl_cons]
    exact ⟨h2.1.trans h.1, h2.2.1.trans h.2.1, h2.2.2.trans h.2.2⟩

/-- The resolver run relates the base globals pointwise by StepRel. -/
theorem resolveFold_rel (P : List Sym) (gs : List Sym)
    (hsub : ∀ g ∈ gs, g ∈ P) (acc : Module × List Name) :
    List.Forall₂ (StepRel P) acc.1.globals
      ((gs.foldl resolveStep acc).1.globals) := by
  induction gs generalizing acc with
  | nil => exact List.forall₂_same.mpr fun s _ => ⟨rfl, rfl, Or.inl rfl⟩
  | cons g gs ih =>
    simp only [List.foldl_cons]
    have hg : g ∈ P := hsub g (List.mem_cons_self ..)
    have hrest := ih (fun x hx => hsub x (List.mem_cons_of_mem g hx))
      (resolveStep acc g)
    have hstep : List.Forall₂ (StepRel P) acc.1.globals
        (resolveStep acc g).1.globals := by
      unfold resolveStep
      split
      case isTrue hIsel =>
        split
        case h_1 s₀ hfound =>
          simp only [setGlobalName]
          refine (renameFirst_rel acc.1.globals g.name (g.name ++ origSuffix)).imp ?_
          intro a b hab
          rcases hab with rfl | ⟨hname, rfl⟩
          · exact ⟨rfl, rfl, Or.inl rfl⟩
          · exact ⟨rfl, rfl, Or.inr ⟨by rw [hname]; exact hIsel, g, hg, hIsel, rfl⟩⟩
        case h_2 =>
          exact List.forall₂_same.mpr fun s _ => ⟨rfl, rfl, Or.inl rfl⟩
      case isFalse =>
        exact List.forall₂_same.mpr fun s _ => ⟨rfl, rfl, Or.inl rfl⟩
    refine (forallTwoComp hstep hrest).imp ?_
    rintro a c ⟨b, ⟨hty1, hdf1, hcase1⟩, ⟨hty2, hdf2, hcase2⟩⟩
    refine ⟨hty2.trans hty1, hdf2.trans hdf1, ?_⟩
    rcases hcase2 with rfl | ⟨hbname, hex⟩
    · exact hcase1
    · rcases hcase1 with rfl | ⟨haname, _⟩
      · exact Or.inr ⟨hbname, hex⟩
      · exact Or.inr ⟨haname, hex⟩

/-- Skip invariant: when no global carries the name N, no patch selector's
suffixed name equals N, and N was not yet noticed, then the resolver run
never notices N and every global that ends up named N ++ origSuffix was
already in the reference list B. -/
theorem resolveFold_skips (N : Name) (B : List Sym) (gs : List Sym) :
    ∀ acc : Module × List Name,
      (∀ g ∈ gs, isIselName g.name = true → g.name ++ origSuffix ≠ N) →
      (∀ s ∈ acc.1.globals, s.name ≠ N) →
      (∀ s ∈ acc.1.globals, s.name = N ++ origSuffix → s ∈ B) →
      N ∉ acc.2 →
      N ∉ (gs.foldl resolveStep acc).2 ∧
        ∀ t ∈ (gs.foldl resolveStep acc).1.globals,
          t.name = N ++ origSuffix → t ∈ B := by
  induction gs with
  | nil => intro acc _ _ hB hlog; exact ⟨hlog, hB⟩
  | cons g gs ih =>
    intro acc hfr hnoN hB hlog
    simp only [List.foldl_cons]
    by_cases hIsel : isIselName g.name = true
    · rcases hfind : getGlobalVariable acc.1 g.name with _ | s₀
      · have hstep : resolveStep acc g = acc := by
          unfold resolveStep
          rw [if_pos hIsel, hfind]
        rw [hstep]
        exact ih acc (fun x hx h => hfr x (List.mem_cons_of_mem _ hx) h)
          hnoN hB hlog
      · have hgN : g.name ≠ N := by
          obtain ⟨hmem, hn⟩ := findByName_eq_some hfind
          intro h
          exact hnoN s₀ hmem (hn.trans h)
        have hstep : resolveStep acc g =
            (setGlobalName acc.1 g.name (g.name ++ origSuffix),
              acc.2 ++ [g.name]) := by
          unfold resolveStep
          rw [if_pos hIsel, hfind]
        rw [hstep]
        apply ih
        · exact fun x hx h => hfr x (List.mem_cons_of_mem _ hx) h
        · intro t ht
          simp only [setGlobalName] at ht
          rcases mem_renameFirst ht with h' | ⟨s, hs, hso, rfl⟩
          · exact hnoN t h'
          · simpa using hfr g (List.mem_cons_self ..) hIsel
        · intro t ht htn
          simp only [setGlobalName] at ht
          rcases mem_renameFirst ht with h' | ⟨s, hs, hso, rfl⟩
          · exact hB t h' htn
          · exfalso
            apply hgN
            have h1 : g.name ++ origSuffix = N ++ origSuffix := by simpa using htn
            exact List.append_cancel_right h1
        · simp only [List.mem_append, List.mem_singleton]
          rintro (h | h)
          · exact hlog h
          · exact hgN h.symm
    · have hstep : resolveStep acc g = acc := by
        unfold resolveStep
        rw [if_neg hIsel]
      rw [hstep]
      exact ih acc (fun x hx h => hfr x (List.mem_cons_of_mem _ hx) h)
        hnoN hB hlog

/-- Renaming by map is the identity when no entry carries the old name. -/
theorem map_rename_id {l : List Sym} {o n : Name}
    (h : ∀ s ∈ l, s.name ≠ o) :
    l.map (fun s => if s.name = o then { s with name := n } else s) = l := by
  induction l with
  | nil => rfl
  | cons s rest ih =>
    simp only [List.map_cons]
    rw [if_neg (h s (List.mem_cons_self ..)),
      ih (fun x hx => h x (List.mem_cons_of_mem _ hx))]

/-- Under unique names renameFirst acts pointwise as a map. -/
theorem renameFirst_eq_map {l : List Sym} {o n : Name}
    (hu : (l.map Sym.name).Nodup) :
    renameFirst l o n =
      l.map (fun s => if s.name = o then { s with name := n } else s) := by
  induction l with
  | nil => rfl
  | cons s rest ih =>
    simp only [List.map_cons, List.nodup_cons, List.mem_map] at hu
    by_cases hs : s.name = o
    · have hrest : ∀ x ∈ rest, x.name ≠ o := by
        intro x hx h
        exact hu.1 ⟨x, hx, h.trans hs.symm⟩
      unfold renameFirst
      rw [if_pos hs]
      simp only [List.map_cons, if_pos hs]
      rw [map_rename_id hrest]
    · unfold renameFirst
      rw [if_neg hs]
      simp only [List.map_cons, if_neg hs]
      rw [ih hu.2]

/-- Names after a pointwise rename are the pointwise-renamed names. -/
theorem rename_names {l : List Sym} {o n : Name} :
    (l.map (fun s => if s.name = o then { s with name := n } else s)).map
        Sym.name
      = (l.map Sym.name).map (fun x => if x = o then n else x) := by
  rw [List.map_map, List.map_map]
  apply List.map_congr_left
  intro s _
  by_cases h : s.name = o
  · simp [Function.comp, h]
  · simp [Function.comp, h]

/-- Full characterisation of the resolver run under the freshness side
conditions: each base global whose name is a selector name of the patch list
is renamed by the suffix, everything else is untouched, and the notice log
lists, in order, the selector-named patch globals that collided with the
original base module. -/
theorem resolveFold_char (gs : List Sym) :
    ∀ (m : Module) (log : List Name),
      (m.globals.map Sym.name).Nodup →
      (gs.map Sym.name).Nodup →
      (∀ g ∈ gs, isIselName g.name = true →
        (g.name ++ origSuffix) ∉ m.globals.map Sym.name) →
      (∀ g ∈ gs, isIselName g.name = true →
        (g.name ++ origSuffix) ∉ gs.map Sym.name) →
      (gs.foldl resolveStep (m, log)).1.globals = m.globals.map (rnBy gs) ∧
      (gs.foldl resolveStep (m, log)).2 =
        log ++ (gs.filter (selHit m)).map Sym.name := by
  induction gs with
  | nil =>
    intro m log _ _ _ _
    constructor
    · have hpt : ∀ s ∈ m.globals, rnBy ([] : List Sym) s = s := by
        intro s _
        unfold rnBy
        rw [if_neg]
        rintro ⟨g, hg, _⟩
        cases hg
      simp only [List.foldl_nil]
      rw [List.map_congr_left hpt]
      exact (List.map_id m.globals).symm
    · simp
  | cons g gs ih =>
    intro m log h1 hgs hfm hfg
    rw [List.map_cons, List.nodup_cons] at hgs
    obtain ⟨hgnotin, hgs'⟩ := hgs
    have hfg' : ∀ g' ∈ gs, isIselName g'.name = true →
        (g'.name ++ origSuffix) ∉ gs.map Sym.name := by
      intro g' hg' hsel hmem
      exact hfg g' (List.mem_cons_of_mem _ hg') hsel
        (by rw [List.map_cons]; exact List.mem_cons_of_mem _ hmem)
    have hfm' : ∀ g' ∈ gs, isIselName g'.name = true →
        (g'.name ++ origSuffix) ∉ m.globals.map Sym.name :=
      fun g' hg' hsel => hfm g' (List.mem_cons_of_mem _ hg') hsel
    simp only [List.foldl_cons]
    by_cases hIsel : isIselName g.name = true
    · rcases hfind : getGlobalVariable m g.name with _ | s₀
      · -- selector with no collision: the step is a no-op
        have hnom : ∀ s ∈ m.globals, s.name ≠ g.name :=
          findByName_eq_none.mp hfind
        have hstep : resolveStep (m, log) g = (m, log) := by
          simp only [resolveStep, hIsel, if_true]
          rw [show getGlobalVariable ((m, log) : Module × List Name).1 g.name
            = none from hfind]
        rw [hstep]
        obtain ⟨hgl, hlg⟩ := ih m log h1 hgs' hfm' hfg'
        constructor
        · rw [hgl]
          apply (List.map_congr_left ?_).symm
          intro s hs
          unfold rnBy
          apply if_congr ?_ rfl rfl
          constructor
          · rintro ⟨g', hg', hi, hn⟩
            rcases List.mem_cons.mp hg' with rfl | h'
            · exact absurd hn.symm (hnom s hs)
            · exact ⟨g', h', hi, hn⟩
          · rintro ⟨g', hg', hi, hn⟩
            exact ⟨g', List.mem_cons_of_mem _ hg', hi, hn⟩
        · rw [hlg]
          have hnosel : selHit m g = false := by
            unfold selHit
            have : hasGlobalNamed m g.name = false := by
              rw [← Bool.not_eq_true, hasGlobalNamed_iff]
              intro hmem
              rcases List.mem_map.mp hmem with ⟨s, hs, hn⟩
              exact hnom s hs hn
            rw [this, Bool.and_false]
          rw [List.filter_cons_of_neg]
          rw [hnosel]
          exact Bool.false_ne_true
      · -- selector collision: the step renames and notices
        have hmem₀ := findByName_eq_some hfind
        have hstep : resolveStep (m, log) g =
            (setGlobalName m g.name (g.name ++ origSuffix),
              log ++ [g.name]) := by
          simp only [resolveStep, hIsel, if_true]
          rw [show getGlobalVariable ((m, log) : Module × List Name).1 g.name
            = some s₀ from hfind]
        rw [hstep]
        have hren : (setGlobalName m g.name (g.name ++ origSuffix)).globals =
            m.globals.map (fun s => if s.name = g.name
              then { s with name := g.name ++ origSuffix } else s) := by
          simp only [setGlobalName]
          exact renameFirst_eq_map h1
        have hnames : (setGlobalName m g.name
              (g.name ++ origSuffix)).globals.map Sym.name =
            (m.globals.map Sym.name).map
              (fun x => if x = g.name then g.name ++ origSuffix else x) := by
          rw [hren]
          exact rename_names
        have hgorig : (g.name ++ origSuffix) ∉ m.globals.map Sym.name :=
          hfm g (List.mem_cons_self ..) hIsel
        have hgorig2 : (g.name ++ origSuffix) ∉ (g :: gs).map Sym.name :=
          hfg g (List.mem_cons_self ..) hIsel
        have h1' : ((setGlobalName m g.name
            (g.name ++ origSuffix)).globals.map Sym.name).Nodup := by
          rw [hnames]
          apply h1.map_on
          intro x hx y hy hφ
          by_cases hxg : x = g.name
          · by_cases hyg : y = g.name
            · rw [hxg, hyg]
            · rw [if_pos hxg, if_neg hyg] at hφ
              exact absurd (hφ ▸ hy) hgorig
          · by_cases hyg : y = g.name
            · rw [if_neg hxg, if_pos hyg] at hφ
              exact absurd (hφ ▸ hx) hgorig
            · rw [if_neg hxg, if_neg hyg] at hφ
              exact hφ
        have hmemnames : ∀ x : Name,
            x ∈ (setGlobalName m g.name
                (g.name ++ origSuffix)).globals.map Sym.name ↔
              (x ∈ m.globals.map Sym.name ∧ x ≠ g.name) ∨
                (x = g.name ++ origSuffix ∧ g.name ∈ m.globals.map Sym.name) := by
          intro x
          rw [hnames]
          constructor
          · intro hx
            rcases List.mem_map.mp hx with ⟨y, hy, hφ⟩
            by_cases hyg : y = g.name
            · rw [if_pos hyg] at hφ
              exact Or.inr ⟨hφ.symm, hyg ▸ hy⟩
            · rw [if_neg hyg] at hφ
              refine Or.inl ⟨hφ ▸ hy, ?_⟩
              rw [← hφ]
              exact hyg
          · rintro (⟨hx, hxg⟩ | ⟨rfl, hg⟩)
            · exact List.mem_map.mpr ⟨x, hx, if_neg hxg⟩
            · exact List.mem_map.mpr ⟨g.name, hg, if_pos rfl⟩
        have h2' : ∀ g' ∈ gs, isIselName g'.name = true →
            (g'.name ++ origSuffix) ∉ (setGlobalName m g.name
              (g.name ++ origSuffix)).globals.map Sym.name := by
          intro g' hg' hsel hmem
          rcases (hmemnames _).mp hmem with ⟨hx, _⟩ | ⟨heq, _⟩
          · exact hfm' g' hg' hsel hx
          · have : g'.name = g.name := List.append_cancel_right heq
            exact hgnotin (this ▸ List.mem_map.mpr ⟨g', hg', rfl⟩)
        obtain ⟨hgl, hlg⟩ := ih (setGlobalName m g.name (g.name ++ origSuffix))
          (log ++ [g.name]) h1' hgs' h2' hfg'
        constructor
        · rw [hgl, hren, List.map_map]
          apply List.map_congr_left
          intro s hs
          by_cases hsg : s.name = g.name
          · have hLf : (rnBy gs ∘ fun t => if t.name = g.name
                then { t with name := g.name ++ origSuffix } else t) s =
                rnBy gs { s with name := g.name ++ origSuffix } := by
              simp only [Function.comp]
              rw [if_pos hsg]
            have hnot : rnBy gs { s with name := g.name ++ origSuffix } =
                { s with name := g.name ++ origSuffix } := by
              unfold rnBy
              rw [if_neg]
              rintro ⟨g', hg', hi, hn⟩
              have hn' : g'.name = g.name ++ origSuffix := hn
              apply hgorig2
              rw [List.map_cons]
              have hin : g'.name ∈ gs.map Sym.name :=
                List.mem_map.mpr ⟨g', hg', rfl⟩
              exact List.mem_cons_of_mem _ (hn' ▸ hin)
            have hR : rnBy (g :: gs) s =
                { s with name := s.name ++ origSuffix } := by
              unfold rnBy
              rw [if_pos ⟨g, List.mem_cons_self .., hIsel, hsg.symm⟩]
            rw [hLf, hnot, hR, hsg]
          · have hLf : (rnBy gs ∘ fun t => if t.name = g.name
                then { t with name := g.name ++ origSuffix } else t) s =
                rnBy gs s := by
              simp only [Function.comp]
              rw [if_neg hsg]
            rw [hLf]
            unfold rnBy
            apply if_congr ?_ rfl rfl
            constructor
            · rintro ⟨g', hg', hi, hn⟩
              exact ⟨g', List.mem_cons_of_mem _ hg', hi, hn⟩
            · rintro ⟨g', hg', hi, hn⟩
              rcases List.mem_cons.mp hg' with rfl | h'
              · exact absurd hn (fun h => hsg h.symm)
              · exact ⟨g', h', hi, hn⟩
        · rw [hlg]
          have hselg : selHit m g = true := by
            unfold selHit
            rw [hIsel, Bool.true_and, hasGlobalNamed_iff]
            exact List.mem_map.mpr ⟨s₀, hmem₀.1, hmem₀.2⟩
          have hcongr : ∀ g' ∈ gs,
              selHit (setGlobalName m g.name (g.name ++ origSuffix)) g' =
                selHit m g' := by
            intro g' hg'
            unfold selHit
            by_cases hsel' : isIselName g'.name = true
            · rw [hsel', Bool.true_and, Bool.true_and]
              apply boolEqOfIff
              rw [hasGlobalNamed_iff, hasGlobalNamed_iff]
              constructor
              · intro hmem
                rcases (hmemnames _).mp hmem with ⟨hx, _⟩ | ⟨heq, _⟩
                · exact hx
                · exfalso
                  apply hgorig2
                  rw [List.map_cons]
                  have hin : g'.name ∈ gs.map Sym.name :=
                    List.mem_map.mpr ⟨g', hg', rfl⟩
                  exact List.mem_cons_of_mem _ (heq ▸ hin)
              · intro hmem
                apply (hmemnames _).mpr
                left
                refine ⟨hmem, ?_⟩
                intro hEq
                apply hgnotin
                exact hEq ▸ List.mem_map.mpr ⟨g', hg', rfl⟩
            · have hf : isIselName g'.name = false := by
                rwa [Bool.not_eq_true] at hsel'
              rw [hf, Bool.false_and, Bool.false_and]
          rw [List.filter_congr hcongr, List.filter_cons_of_pos hselg,
            List.map_cons, List.append_assoc, List.singleton_append]
    · -- not selector-named: the step is a no-op
      have hstep : resolveStep (m, log) g = (m, log) := by
        unfold resolveStep
        rw [if_neg hIsel]
      rw [hstep]
      obtain ⟨hgl, hlg⟩ := ih m log h1 hgs' hfm' hfg'
      have hIselF : isIselName g.name = false := by
        rwa [Bool.not_eq_true] at hIsel
      constructor
      · rw [hgl]
        apply (List.map_congr_left ?_).symm
        intro s hs
        unfold rnBy
        apply if_congr ?_ rfl rfl
        constructor
        · rintro ⟨g', hg', hi, hn⟩
          rcases List.mem_cons.mp hg' with rfl | h'
          · rw [hi] at hIselF
            cases hIselF
          · exact ⟨g', h', hi, hn⟩
        · rintro ⟨g', hg', hi, hn⟩
          exact ⟨g', List.mem_cons_of_mem _ hg', hi, hn⟩
      · rw [hlg]
        have hnosel : selHit m g = false := by
          unfold selHit
          rw [hIselF, Bool.false_and]
        rw [List.filter_cons_of_neg]
        rw [hnosel]
        exact Bool.false_ne_true

/-- The conformance step returns the base module unchanged. -/
theorem conformStep_fst (base patch : Module) :
    (conformStep base patch).1 = base := rfl

/-- The conformance step keeps the patch globals. -/
theorem conformStep_globals (base patch : Module) :
    (conformStep base patch).2.globals = patch.globals := rfl

/-- The conformance step keeps the patch functions. -/
theorem conformStep_funcs (base patch : Module) :
    (conformStep base patch).2.funcs = patch.funcs := rfl

/-- The conformance step keeps all patch symbol names. -/
theorem conformStep_names (base patch : Module) :
    moduleNames (conformStep base patch).2 = moduleNames patch := rfl

/-- Unfolding of the post-parse pipeline as a single match on the link. -/
theorem hotpatchCore_eq (base patch : Module) :
    hotpatchCore base patch =
      match linkModules (resolveCollisions base (conformStep base patch).2).1
          (conformStep base patch).2 with
      | none => (Outcome.linkError,
          (resolveCollisions base (conformStep base patch).2).1,
          Event.conform ::
            ((resolveCollisions base (conformStep base patch).2).2.map
                Event.renameEvt ++ [Event.linkAttempt]))
      | some merged => (Outcome.ok, merged,
          Event.conform ::
            ((resolveCollisions base (conformStep base patch).2).2.map
                Event.renameEvt ++ [Event.linkAttempt])) := rfl

/-- hotpatchRun when the patch file is missing. -/
theorem hotpatchRun_notFound {fs : FS} {base : Module} {path : String}
    (h : fs.pathExists path = false) :
    hotpatchRun fs base path = (Outcome.notFound, base, []) := by
  simp [hotpatchRun, h]

/-- hotpatchRun when the patch file exists but does not parse. -/
theorem hotpatchRun_parseFail {fs : FS} {base : Module} {path : String}
    (hex : fs.pathExists path = true) (hp : fs.parse path = none) :
    hotpatchRun fs base path = (Outcome.parseError, base, []) := by
  simp [hotpatchRun, hex, hp]

/-- hotpatchRun when the patch file exists and parses. -/
theorem hotpatchRun_parsed {fs : FS} {base : Module} {path : String}
    {patch : Module}
    (hex : fs.pathExists path = true) (hp : fs.parse path = some patch) :
    hotpatchRun fs base path = hotpatchCore base patch := by
  simp [hotpatchRun, hex, hp]

/-- The boolean view is the decoded outcome plus the left-behind module. -/
theorem hotpatchRemill_eq (fs : FS) (base : Module) (path : String) :
    hotpatchRemill fs base path =
      (decide ((hotpatchRun fs base path).1 = Outcome.ok),
        (hotpatchRun fs base path).2.1) := rfl

/-- The post-parse pipeline on a failing link: failure reported, the renamed
module is left behind. -/
theorem hotpatchCore_linkFail {base patch : Module}
    (hl : linkModules (resolveCollisions base (conformStep base patch).2).1
        (conformStep base patch).2 = none) :
    hotpatchCore base patch =
      (Outcome.linkError,
        (resolveCollisions base (conformStep base patch).2).1,
        Event.conform ::
          ((resolveCollisions base (conformStep base patch).2).2.map
              Event.renameEvt ++ [Event.linkAttempt])) := by
  rw [hotpatchCore_eq, hl]

/-- The post-parse pipeline on a successful link. -/
theorem hotpatchCore_linkOk {base patch merged : Module}
    (hl : linkModules (resolveCollisions base (conformStep base patch).2).1
        (conformStep base patch).2 = some merged) :
    hotpatchCore base patch =
      (Outcome.ok, merged,
        Event.conform ::
          ((resolveCollisions base (conformStep base patch).2).2.map
              Event.renameEvt ++ [Event.linkAttempt])) := by
  rw [hotpatchCore_eq, hl]

/-- Structure of the merged module produced by a successful link. -/
theorem linkModules_some {dst src merged : Module}
    (h : linkModules dst src = some merged) :
    merged =
      { globals :=
          dst.globals.filter (fun s => decide (s.name ∉ moduleNames src))
            ++ src.globals
        funcs :=
          dst.funcs.filter (fun s => decide (s.name ∉ moduleNames src))
            ++ src.funcs
        dataLayout := dst.dataLayout
        triple := dst.triple } := by
  unfold linkModules at h
  split at h
  · cases h
  · exact (Option.some.inj h).symm

/-- C2: for every base module and every path that does not exist, the
hotpatch reports failure (NotFound, boolean false) and leaves the base
module completely unchanged, with an empty action trace: no rename, no
metadata copy, no link attempt. -/
theorem C2_notFound_unchanged (fs : FS) (base : Module) (path : String)
    (h : fs.pathExists path = false) :
    hotpatchRun fs base path = (Outcome.notFound, base, []) ∧
    hotpatchRemill fs base path = (false, base) := by
  have h1 : hotpatchRun fs base path = (Outcome.notFound, base, []) :=
    hotpatchRun_notFound h
  refine ⟨h1, ?_⟩
  rw [hotpatchRemill_eq, h1]
  rfl

/-- Witness for C2 at a concrete filesystem without the patch file. -/
theorem C2_notFound_unchanged_witness :
    hotpatchRun fsC2 baseW1 "p" = (Outcome.notFound, baseW1, []) ∧
    hotpatchRemill fsC2 baseW1 "p" = (false, baseW1) :=
  C2_notFound_unchanged fsC2 baseW1 "p" rfl

/-- C4: for every pair of modules, after the target conformance step the
patch module's data layout and target triple equal the base module's, the
base module is returned untouched, and no symbol of the patch module is
altered. -/
theorem C4_conformance (base patch : Module) :
    (conformStep base patch).1 = base ∧
    (conformStep base patch).2.dataLayout = base.dataLayout ∧
    (conformStep base patch).2.triple = base.triple ∧
    (conformStep base patch).2.globals = patch.globals ∧
    (conformStep base patch).2.funcs = patch.funcs :=
  ⟨rfl, rfl, rfl, rfl, rfl⟩

/-- C8: the pipeline short-circuits in order.  A missing file stops before
any action; a parse failure stops before the metadata overwrite, the renames
and the link (empty trace); when parsing succeeds the trace is exactly the
metadata overwrite, then the renames, then the link attempt; and the
boolean result is success exactly for the ok outcome. -/
theorem C8_ordering (fs : FS) (base : Module) (path : String) :
    (fs.pathExists path = false →
      hotpatchRun fs base path = (Outcome.notFound, base, [])) ∧
    (fs.pathExists path = true → fs.parse path = none →
      hotpatchRun fs base path = (Outcome.parseError, base, [])) ∧
    (∀ patch, fs.pathExists path = true → fs.parse path = some patch →
      (hotpatchRun fs base path).2.2 =
        Event.conform ::
          ((resolveCollisions base (conformStep base patch).2).2.map
              Event.renameEvt ++ [Event.linkAttempt])) ∧
    ((hotpatchRemill fs base path).1 = true ↔
      (hotpatchRun fs base path).1 = Outcome.ok) := by
  refine ⟨fun h => hotpatchRun_notFound h,
    fun hex hp => hotpatchRun_parseFail hex hp, ?_, ?_⟩
  · intro patch hex hp
    rw [hotpatchRun_parsed hex hp, hotpatchCore_eq]
    rcases hl : linkModules
        (resolveCollisions base (conformStep base patch).2).1
        (conformStep base patch).2 with _ | merged
    · rfl
    · rfl
  · rw [hotpatchRemill_eq]
    simp

/-- Witness for C8 at a concrete filesystem whose patch file exists but does
not parse: the trace stays empty and the result is failure. -/
theorem C8_ordering_witness :
    hotpatchRun fsC8 baseW1 "p" = (Outcome.parseError, baseW1, []) :=
  (C8_ordering fsC8 baseW1 "p").2.1 rfl rfl

/-- C9: main checks the file's existence itself before calling the hotpatch,
so with one filesystem state shared by both checks the NotFound branch of
hotpatchRemill is unreachable from main; when the file is absent, main skips
patching entirely and continues with the unchanged semantics module. -/
theorem C9_guard (fs : FS) (semantics : Module) (exeDir : String)
    (argv : List String) :
    (fs.pathExists (chosenHotpatchPath exeDir argv) = true →
      (hotpatchRun fs semantics (chosenHotpatchPath exeDir argv)).1 ≠
        Outcome.notFound) ∧
    (fs.pathExists (chosenHotpatchPath exeDir argv) = false →
      mainApplyHotpatch fs semantics exeDir argv = semantics) := by
  constructor
  · intro hex h
    rcases hp : fs.parse (chosenHotpatchPath exeDir argv) with _ | patch
    · rw [hotpatchRun_parseFail hex hp] at h
      cases h
    · rw [hotpatchRun_parsed hex hp, hotpatchCore_eq] at h
      rcases hl : linkModules
          (resolveCollisions semantics
            (conformStep semantics patch).2).1
          (conformStep semantics patch).2 with _ | merged
      · rw [hl] at h
        simp at h
      · rw [hl] at h
        simp at h
  · intro hne
    simp [mainApplyHotpatch, hne]

/-- Witness for C9 at a concrete filesystem without the patch file: main
leaves the semantics module untouched. -/
theorem C9_guard_witness :
    mainApplyHotpatch fsC2 baseW1 "/x" [] = baseW1 :=
  (C9_guard fsC2 baseW1 "/x" []).2 rfl

/-- C6: if the override link fails after the rename step ran, the hotpatch
reports failure and leaves the base module exactly in the post-rename state:
every rename already applied is retained and nothing is rolled back. -/
theorem C6_linkFail_keeps_renames (fs : FS) (base patch : Module)
    (path : String)
    (hex : fs.pathExists path = true) (hp : fs.parse path = some patch)
    (hl : linkModules (resolveCollisions base (conformStep base patch).2).1
        (conformStep base patch).2 = none) :
    hotpatchRemill fs base path =
      (false, (resolveCollisions base (conformStep base patch).2).1) := by
  rw [hotpatchRemill_eq, hotpatchRun_parsed hex hp, hotpatchCore_linkFail hl]
  rfl

/-- Witness for C6 at a concrete type-clashing patch: the failed link leaves
the base module with the rename of ISEL_X already applied. -/
theorem C6_linkFail_keeps_renames_witness :
    hotpatchRemill fsW6 baseW6 "p" =
      (false, (resolveCollisions baseW6 (conformStep baseW6 patchW6).2).1) :=
  C6_linkFail_keeps_renames fsW6 baseW6 patchW6 "p" rfl rfl (by decide)

/-- C7 counterexample: the claim fails as stated.  ISEL_X_original is a
selector name of the patch module and the base module holds no symbol named
ISEL_X_original, yet the resolver performs a rename for it and emits the
notice identifying it, because the rename performed for ISEL_X first
introduced that very name into the base module. -/
theorem C7_counterexample :
    isIselName ("ISEL_X_original".toList) = true ∧
    (∃ g ∈ patchC7.globals, g.name = "ISEL_X_original".toList) ∧
    ¬ HasName baseC7 ("ISEL_X_original".toList) ∧
    "ISEL_X_original".toList ∈ (resolveCollisions baseC7 patchC7).2 := by
  decide

/-- C7 (amended): for every selector name N of the patch module such that
the base module holds no symbol named N, provided no selector name M of the
patch module satisfies M ++ "_original" = N, the resolver emits no notice
for N and every global left under the name N ++ "_original" was already a
base global, i.e. nothing was renamed for N; the resolver is total and has
no error outcome. -/
theorem C7_amended (base patch : Module) (N : Name)
    (hsel : isIselName N = true)
    (hnone : ¬ HasName base N)
    (hfr : ∀ g ∈ patch.globals, isIselName g.name = true →
      g.name ++ origSuffix ≠ N) :
    N ∉ (resolveCollisions base patch).2 ∧
      ∀ t ∈ (resolveCollisions base patch).1.globals,
        t.name = N ++ origSuffix → t ∈ base.globals := by
  have hnoN : ∀ s ∈ base.globals, s.name ≠ N := by
    intro s hs h
    apply hnone
    show N ∈ moduleNames base
    rw [moduleNames_eq]
    exact List.mem_append.mpr (Or.inl (List.mem_map.mpr ⟨s, hs, h⟩))
  exact resolveFold_skips N base.globals patch.globals (base, []) hfr
    hnoN (fun s hs _ => hs) (List.not_mem_nil N)

/-- Witness for the amended C7: a new selector ISEL_Y triggers no notice and
no rename. -/
theorem C7_amended_witness :
    "ISEL_Y".toList ∉ (resolveCollisions baseW7 patchW7).2 ∧
      ∀ t ∈ (resolveCollisions baseW7 patchW7).1.globals,
        t.name = "ISEL_Y".toList ++ origSuffix → t ∈ baseW7.globals :=
  C7_amended baseW7 patchW7 ("ISEL_Y".toList) (by decide) (by decide)
    (by decide)

/-- C3 counterexample: the claim fails as stated for Function-definition
symbols.  ISEL_F names a function in both modules and begins with the
naming-convention marker, yet the resolver renames nothing and emits no
notice, because the loop iterates global variables only and looks up only
global variables in the base module. -/
theorem C3_counterexample :
    isIselName ("ISEL_F".toList) = true ∧
    (∃ s ∈ moduleSyms patchC3, s.name = "ISEL_F".toList) ∧
    (∃ s ∈ moduleSyms baseC3, s.name = "ISEL_F".toList) ∧
    resolveCollisions baseC3 patchC3 = (baseC3, []) := by
  decide

/-- C3 (amended): the resolver processes only the Global-variable symbols of
the patch module.  Under unique names per module (I1) and freshness of the
suffixed selector names in both modules, for every selector-named patch
global g and base global s carrying the same name, the resolver renames s to
s.name ++ "_original" and emits the notice identifying that name. -/
theorem C3_amended (base patch : Module)
    (hUb : NamesUnique base) (hUp : NamesUnique patch)
    (hfresh : ∀ g ∈ patch.globals, isIselName g.name = true →
      ¬ HasName base (g.name ++ origSuffix) ∧
        ¬ HasName patch (g.name ++ origSuffix)) :
    ∀ g ∈ patch.globals, isIselName g.name = true →
      ∀ s ∈ base.globals, s.name = g.name →
        { s with name := s.name ++ origSuffix } ∈
            (resolveCollisions base patch).1.globals ∧
          g.name ∈ (resolveCollisions base patch).2 := by
  have h1 : (base.globals.map Sym.name).Nodup := by
    have h : (moduleNames base).Nodup := hUb
    rw [moduleNames_eq] at h
    exact h.of_append_left
  have hgs : (patch.globals.map Sym.name).Nodup := by
    have h : (moduleNames patch).Nodup := hUp
    rw [moduleNames_eq] at h
    exact h.of_append_left
  have hfm : ∀ g ∈ patch.globals, isIselName g.name = true →
      (g.name ++ origSuffix) ∉ base.globals.map Sym.name := by
    intro g hg hi hmem
    apply (hfresh g hg hi).1
    show (g.name ++ origSuffix) ∈ moduleNames base
    rw [moduleNames_eq]
    exact List.mem_append.mpr (Or.inl hmem)
  have hfg : ∀ g ∈ patch.globals, isIselName g.name = true →
      (g.name ++ origSuffix) ∉ patch.globals.map Sym.name := by
    intro g hg hi hmem
    apply (hfresh g hg hi).2
    show (g.name ++ origSuffix) ∈ moduleNames patch
    rw [moduleNames_eq]
    exact List.mem_append.mpr (Or.inl hmem)
  obtain ⟨hgl, hlg⟩ := resolveFold_char patch.globals base [] h1 hgs hfm hfg
  intro g hg hi s hs hn
  constructor
  · have hval : (resolveCollisions base patch).1.globals =
        base.globals.map (rnBy patch.globals) := hgl
    rw [hval]
    apply List.mem_map.mpr
    refine ⟨s, hs, ?_⟩
    unfold rnBy
    rw [if_pos ⟨g, hg, hi, hn.symm⟩]
  · have hval : (resolveCollisions base patch).2 =
        [] ++ (patch.globals.filter (selHit base)).map Sym.name := hlg
    rw [hval, List.nil_append]
    apply List.mem_map.mpr
    refine ⟨g, ?_, rfl⟩
    apply List.mem_filter.mpr
    refine ⟨hg, ?_⟩
    unfold selHit
    rw [hi, Bool.true_and, hasGlobalNamed_iff]
    exact List.mem_map.mpr ⟨s, hs, hn⟩

/-- Witness for the amended C3: the collision on ISEL_X renames the base
global and notices the name. -/
theorem C3_amended_witness :
    ({ name := "ISEL_X".toList ++ origSuffix, ty := 0, defn := 5 } : Sym) ∈
        (resolveCollisions baseW1 patchW1).1.globals ∧
      "ISEL_X".toList ∈ (resolveCollisions baseW1 patchW1).2 := by
  have h := C3_amended baseW1 patchW1 (by decide) (by decide) (by decide)
    { name := "ISEL_X".toList, ty := 0, defn := 9 } (by decide) (by decide)
    { name := "ISEL_X".toList, ty := 0, defn := 5 } (by decide) (by decide)
  exact h

/-- Globals of the merged module. -/
theorem linkModules_some_globals {dst src merged : Module}
    (h : linkModules dst src = some merged) :
    merged.globals =
      dst.globals.filter (fun s => decide (s.name ∉ moduleNames src))
        ++ src.globals := by
  rw [linkModules_some h]

/-- Functions of the merged module. -/
theorem linkModules_some_funcs {dst src merged : Module}
    (h : linkModules dst src = some merged) :
    merged.funcs =
      dst.funcs.filter (fun s => decide (s.name ∉ moduleNames src))
        ++ src.funcs := by
  rw [linkModules_some h]

/-- Override-from-source: a name resolving in the source module resolves in
the merged module to the source's symbol, since every destination symbol of
that name is dropped by the merge. -/
theorem resolveSym_merged {dst src merged : Module} {n : Name} {s : Sym}
    (h : linkModules dst src = some merged)
    (hn : n ∈ moduleNames src)
    (hfind : resolveSym src n = some s) :
    resolveSym merged n = some s := by
  have hq : ∀ t : Sym, t.name = n →
      (decide (t.name ∉ moduleNames src) : Bool) = false := by
    intro t ht
    rw [ht]
    exact decide_eq_false (fun hcon => hcon hn)
  rcases hg : findByName src.globals n with _ | sg
  · have hsf : findByName src.funcs n = some s := by
      unfold resolveSym at hfind
      rw [hg] at hfind
      exact hfind
    have hgf : findByName merged.globals n = none := by
      rw [linkModules_some_globals h]
      rw [findByName_append_none
        (findByName_filter_none (fun t _ ht => hq t ht))]
      exact hg
    have hff : findByName merged.funcs n = some s := by
      rw [linkModules_some_funcs h]
      rw [findByName_append_none
        (findByName_filter_none (fun t _ ht => hq t ht))]
      exact hsf
    unfold resolveSym
    rw [hgf, hff]
  · have hsg : sg = s := by
      unfold resolveSym at hfind
      rw [hg] at hfind
      exact Option.some.inj hfind
    have hgf : findByName merged.globals n = some s := by
      rw [linkModules_some_globals h]
      rw [findByName_append_none
        (findByName_filter_none (fun t _ ht => hq t ht))]
      rw [hg, hsg]
    unfold resolveSym
    rw [hgf]

/-- C5: for every patch symbol whose name does not begin with the naming
convention marker, the resolver touches no base symbol of that name, and on
a successful hotpatch the name resolves in the merged module to the patch's
definition (override-from-source), not preserved under a suffixed name: a
symbol named N ++ "_original" exists afterwards only if one of the input
modules already carried that name. -/
theorem C5_nonselector_override (fs : FS) (base patch : Module)
    (path : String) (N : Name) (sp : Sym)
    (hUp : NamesUnique patch)
    (hex : fs.pathExists path = true) (hp : fs.parse path = some patch)
    (hsp : sp ∈ moduleSyms patch) (hspn : sp.name = N)
    (hNsel : isIselName N = false)
    (hok : (hotpatchRemill fs base path).1 = true) :
    (∀ s ∈ base.globals, s.name = N →
        s ∈ (resolveCollisions base (conformStep base patch).2).1.globals) ∧
    resolveSym (hotpatchRemill fs base path).2 N = some sp ∧
    (HasName (hotpatchRemill fs base path).2 (N ++ origSuffix) →
      HasName base (N ++ origSuffix) ∨ HasName patch (N ++ origSuffix)) := by
  rcases hl : linkModules
      (resolveCollisions base (conformStep base patch).2).1
      (conformStep base patch).2 with _ | merged
  · exfalso
    rw [hotpatchRemill_eq, hotpatchRun_parsed hex hp,
      hotpatchCore_linkFail hl] at hok
    simp at hok
  · have hres : (hotpatchRemill fs base path).2 = merged := by
      rw [hotpatchRemill_eq, hotpatchRun_parsed hex hp,
        hotpatchCore_linkOk hl]
    have hrel := resolveFold_rel (conformStep base patch).2.globals
      (conformStep base patch).2.globals (fun g hg => hg) (base, [])
    have hpart1 : ∀ s ∈ base.globals, s.name = N →
        s ∈ (resolveCollisions base (conformStep base patch).2).1.globals := by
      intro s hs hn
      rcases forallTwoMemLeft hrel hs with ⟨t, ht, hty, hdf, hcase⟩
      rcases hcase with rfl | ⟨hi, _⟩
      · exact ht
      · rw [hn, hNsel] at hi
        exact absurd hi Bool.false_ne_true
    have hNin : N ∈ moduleNames (conformStep base patch).2 := by
      rw [conformStep_names]
      exact List.mem_map.mpr ⟨sp, hsp, hspn⟩
    have hUp' : (patch.globals.map Sym.name ++
        patch.funcs.map Sym.name).Nodup := by
      have h : (moduleNames patch).Nodup := hUp
      rwa [moduleNames_eq] at h
    have hfindp : resolveSym (conformStep base patch).2 N = some sp := by
      rcases List.mem_append.mp hsp with hg | hf
      · have hfound : findByName patch.globals N = some sp :=
          findByName_unique hUp'.of_append_left hg hspn
        unfold resolveSym
        rw [conformStep_globals, hfound]
      · have hnog : findByName patch.globals N = none := by
          apply findByName_eq_none.mpr
          intro t ht htN
          rw [List.nodup_append] at hUp'
          exact hUp'.2.2 (List.mem_map.mpr ⟨t, ht, htN⟩)
            (List.mem_map.mpr ⟨sp, hf, hspn⟩)
        have hfound : findByName patch.funcs N = some sp :=
          findByName_unique hUp'.of_append_right hf hspn
        unfold resolveSym
        rw [conformStep_globals, conformStep_funcs, hnog, hfound]
    have hpart2 : resolveSym merged N = some sp :=
      resolveSym_merged hl hNin hfindp
    have hpart3 : HasName merged (N ++ origSuffix) →
        HasName base (N ++ origSuffix) ∨ HasName patch (N ++ origSuffix) := by
      intro hmem
      have hmem' : (N ++ origSuffix) ∈ moduleNames merged := hmem
      rw [moduleNames_eq, linkModules_some_globals hl,
        linkModules_some_funcs hl] at hmem'
      rcases List.mem_append.mp hmem' with hside | hside
      · rcases List.mem_map.mp hside with ⟨t, ht, htn⟩
        rcases List.mem_append.mp ht with htd | hts
        · have htd' := (List.mem_filter.mp htd).1
          rcases forallTwoMemRight hrel htd' with ⟨a, ha, hty, hdf, hcase⟩
          rcases hcase with rfl | ⟨hi, g', hg', hgi, hgn⟩
          · left
            show (N ++ origSuffix) ∈ moduleNames base
            rw [moduleNames_eq]
            exact List.mem_append.mpr
              (Or.inl (List.mem_map.mpr ⟨t, ha, htn⟩))
          · exfalso
            have heq : g'.name = N :=
              List.append_cancel_right (hgn.symm.trans htn)
            rw [heq, hNsel] at hgi
            exact Bool.false_ne_true hgi
        · right
          show (N ++ origSuffix) ∈ moduleNames patch
          rw [moduleNames_eq]
          have hts' : t ∈ patch.globals := hts
          exact List.mem_append.mpr
            (Or.inl (List.mem_map.mpr ⟨t, hts', htn⟩))
      · rcases List.mem_map.mp hside with ⟨t, ht, htn⟩
        rcases List.mem_append.mp ht with htd | hts
        · have htd' := (List.mem_filter.mp htd).1
          have hfuncs : (resolveCollisions base
              (conformStep base patch).2).1.funcs = base.funcs :=
            (resolveFold_meta (conformStep base patch).2.globals (base, [])).1
          rw [hfuncs] at htd'
          left
          show (N ++ origSuffix) ∈ moduleNames base
          rw [moduleNames_eq]
          exact List.mem_append.mpr
            (Or.inr (List.mem_map.mpr ⟨t, htd', htn⟩))
        · right
          show (N ++ origSuffix) ∈ moduleNames patch
          rw [moduleNames_eq]
          have hts' : t ∈ patch.funcs := hts
          exact List.mem_append.mpr
            (Or.inr (List.mem_map.mpr ⟨t, hts', htn⟩))
    rw [hres]
    exact ⟨hpart1, hpart2, hpart3⟩

/-- Witness for C5: the non-selector global helper is replaced by the patch
definition without any suffixed copy. -/
theorem C5_nonselector_override_witness :
    (∀ s ∈ baseW5.globals, s.name = "helper".toList →
        s ∈ (resolveCollisions baseW5
          (conformStep baseW5 patchW5).2).1.globals) ∧
    resolveSym (hotpatchRemill fsW5 baseW5 "p").2 ("helper".toList) =
      some { name := "helper".toList, ty := 1, defn := 4 } ∧
    (HasName (hotpatchRemill fsW5 baseW5 "p").2
        ("helper".toList ++ origSuffix) →
      HasName baseW5 ("helper".toList ++ origSuffix) ∨
        HasName patchW5 ("helper".toList ++ origSuffix)) :=
  C5_nonselector_override fsW5 baseW5 patchW5 "p" ("helper".toList)
    { name := "helper".toList, ty := 1, defn := 4 }
    (by decide) rfl rfl (by decide) (by decide) (by decide) (by decide)

/-- Names stay unique after the resolver's renaming map, given freshness of
the suffixed selector names in the base. -/
theorem rnBy_names_nodup {base patch : Module}
    (h1 : (base.globals.map Sym.name).Nodup)
    (hfm : ∀ g ∈ patch.globals, isIselName g.name = true →
      (g.name ++ origSuffix) ∉ base.globals.map Sym.name) :
    ((base.globals.map (rnBy patch.globals)).map Sym.name).Nodup := by
  rw [List.map_map]
  have hinj := List.inj_on_of_nodup_map h1
  apply List.Nodup.map_on ?_ (List.Nodup.of_map Sym.name h1)
  intro x hx y hy hxy
  simp only [Function.comp] at hxy
  unfold rnBy at hxy
  by_cases cx : ∃ g ∈ patch.globals, isIselName g.name = true ∧
      g.name = x.name
  · rw [if_pos cx] at hxy
    by_cases cy : ∃ g ∈ patch.globals, isIselName g.name = true ∧
        g.name = y.name
    · rw [if_pos cy] at hxy
      have hxy' : x.name ++ origSuffix = y.name ++ origSuffix := hxy
      exact hinj hx hy (List.append_cancel_right hxy')
    · rw [if_neg cy] at hxy
      obtain ⟨g, hg, hgi, hgn⟩ := cx
      exfalso
      apply hfm g hg hgi
      have hxy' : x.name ++ origSuffix = y.name := hxy
      rw [hgn, hxy']
      exact List.mem_map.mpr ⟨y, hy, rfl⟩
  · rw [if_neg cx] at hxy
    by_cases cy : ∃ g ∈ patch.globals, isIselName g.name = true ∧
        g.name = y.name
    · rw [if_pos cy] at hxy
      obtain ⟨g, hg, hgi, hgn⟩ := cy
      exfalso
      apply hfm g hg hgi
      have hxy' : x.name = y.name ++ origSuffix := hxy
      rw [hgn, ← hxy']
      exact List.mem_map.mpr ⟨x, hx, rfl⟩
    · rw [if_neg cy] at hxy
      exact hinj hx hy hxy

/-- C1 counterexample: the claim fails as stated.  The selector ISEL_X is a
global of both modules and the hotpatch succeeds, but because the base
module already held a symbol named ISEL_X_original, resolving
ISEL_X_original afterwards yields that pre-existing symbol's definition (7)
rather than the base's pre-patch definition of ISEL_X (5). -/
theorem C1_counterexample :
    (hotpatchRemill fsC1 baseC1 "p").1 = true ∧
    getGlobalVariable baseC1 ("ISEL_X".toList) =
      some { name := "ISEL_X".toList, ty := 0, defn := 5 } ∧
    getGlobalVariable patchC1 ("ISEL_X".toList) =
      some { name := "ISEL_X".toList, ty := 0, defn := 9 } ∧
    (resolveSym (hotpatchRemill fsC1 baseC1 "p").2
        ("ISEL_X_original".toList)).map Sym.defn = some 7 := by
  decide

/-- C1 (amended): for every selector name N present as a global in both
modules, after a successful hotpatch, resolving N in the base module yields
the patch's definition and resolving N ++ "_original" yields the definition
the base held under N — provided additionally that names are unique per
module (I1) and that, before the call, no selector name M of the patch
module has a symbol named M ++ "_original" in either module. -/
theorem C1_override_precedence (fs : FS) (base patch : Module)
    (path : String) (N : Name) (gp gb : Sym)
    (hUb : NamesUnique base) (hUp : NamesUnique patch)
    (hfresh : ∀ g ∈ patch.globals, isIselName g.name = true →
      ¬ HasName base (g.name ++ origSuffix) ∧
        ¬ HasName patch (g.name ++ origSuffix))
    (hex : fs.pathExists path = true) (hp : fs.parse path = some patch)
    (hNsel : isIselName N = true)
    (hgp : gp ∈ patch.globals) (hgpn : gp.name = N)
    (hgb : gb ∈ base.globals) (hgbn : gb.name = N)
    (hok : (hotpatchRemill fs base path).1 = true) :
    resolveSym (hotpatchRemill fs base path).2 N = some gp ∧
    resolveSym (hotpatchRemill fs base path).2 (N ++ origSuffix) =
      some { gb with name := N ++ origSuffix } := by
  rcases hl : linkModules
      (resolveCollisions base (conformStep base patch).2).1
      (conformStep base patch).2 with _ | merged
  · exfalso
    rw [hotpatchRemill_eq, hotpatchRun_parsed hex hp,
      hotpatchCore_linkFail hl] at hok
    simp at hok
  · have hres : (hotpatchRemill fs base path).2 = merged := by
      rw [hotpatchRemill_eq, hotpatchRun_parsed hex hp,
        hotpatchCore_linkOk hl]
    have hgpsel : isIselName gp.name = true := by
      rw [hgpn]
      exact hNsel
    -- side conditions of the characterisation lemma
    have h1 : (base.globals.map Sym.name).Nodup := by
      have h : (moduleNames base).Nodup := hUb
      rw [moduleNames_eq] at h
      exact h.of_append_left
    have hUp' : (patch.globals.map Sym.name ++
        patch.funcs.map Sym.name).Nodup := by
      have h : (moduleNames patch).Nodup := hUp
      rwa [moduleNames_eq] at h
    have hgs : (patch.globals.map Sym.name).Nodup := hUp'.of_append_left
    have hfm : ∀ g ∈ patch.globals, isIselName g.name = true →
        (g.name ++ origSuffix) ∉ base.globals.map Sym.name := by
      intro g hg hi hmem
      apply (hfresh g hg hi).1
      show (g.name ++ origSuffix) ∈ moduleNames base
      rw [moduleNames_eq]
      exact List.mem_append.mpr (Or.inl hmem)
    have hfg : ∀ g ∈ patch.globals, isIselName g.name = true →
        (g.name ++ origSuffix) ∉ patch.globals.map Sym.name := by
      intro g hg hi hmem
      apply (hfresh g hg hi).2
      show (g.name ++ origSuffix) ∈ moduleNames patch
      rw [moduleNames_eq]
      exact List.mem_append.mpr (Or.inl hmem)
    obtain ⟨hgl, hlg⟩ := resolveFold_char patch.globals base [] h1 hgs hfm hfg
    have hbase1 : (resolveCollisions base
        (conformStep base patch).2).1.globals =
        base.globals.map (rnBy patch.globals) := hgl
    -- resolving N yields the patch's definition
    have hNin : N ∈ moduleNames (conformStep base patch).2 := by
      rw [conformStep_names, moduleNames_eq]
      exact List.mem_append.mpr
        (Or.inl (List.mem_map.mpr ⟨gp, hgp, hgpn⟩))
    have hfindp : resolveSym (conformStep base patch).2 N = some gp := by
      have hfound : findByName patch.globals N = some gp :=
        findByName_unique hgs hgp hgpn
      unfold resolveSym
      rw [conformStep_globals, hfound]
    have hpartA : resolveSym merged N = some gp :=
      resolveSym_merged hl hNin hfindp
    -- resolving N ++ origSuffix yields the base's old definition
    have hrnb : rnBy patch.globals gb = { gb with name := N ++ origSuffix } := by
      unfold rnBy
      rw [if_pos ⟨gp, hgp, hgpsel, hgpn.trans hgbn.symm⟩, hgbn]
    have hfreshN : (N ++ origSuffix) ∉ moduleNames patch := by
      have h2 := (hfresh gp hgp hgpsel).2
      rw [hgpn] at h2
      exact h2
    have hq : (decide (({ gb with name := N ++ origSuffix } : Sym).name ∉
        moduleNames (conformStep base patch).2) : Bool) = true := by
      apply decide_eq_true
      show (N ++ origSuffix) ∉ moduleNames patch
      exact hfreshN
    have hmemfil : ({ gb with name := N ++ origSuffix } : Sym) ∈
        (base.globals.map (rnBy patch.globals)).filter
          (fun s => decide (s.name ∉ moduleNames (conformStep base patch).2)) := by
      apply List.mem_filter.mpr
      exact ⟨List.mem_map.mpr ⟨gb, hgb, hrnb⟩, hq⟩
    have hndfil : (((base.globals.map (rnBy patch.globals)).filter
        (fun s => decide (s.name ∉ moduleNames (conformStep base patch).2))).map
          Sym.name).Nodup := by
      have hnd := rnBy_names_nodup h1 hfm
      exact List.Nodup.sublist ((List.filter_sublist _).map Sym.name) hnd
    have hlookup2 : findByName merged.globals (N ++ origSuffix) =
        some { gb with name := N ++ origSuffix } := by
      rw [linkModules_some_globals hl, hbase1]
      apply findByName_append_some
      exact findByName_unique hndfil hmemfil rfl
    have hpartB : resolveSym merged (N ++ origSuffix) =
        some { gb with name := N ++ origSuffix } := by
      unfold resolveSym
      rw [hlookup2]
    rw [hres]
    exact ⟨hpartA, hpartB⟩

/-- Witness for the amended C1: the clean single-selector hotpatch gives the
patch's ISEL_X and preserves the old definition under ISEL_X_original. -/
theorem C1_override_precedence_witness :
    resolveSym (hotpatchRemill fsW1 baseW1 "p").2 ("ISEL_X".toList) =
      some { name := "ISEL_X".toList, ty := 0, defn := 9 } ∧
    resolveSym (hotpatchRemill fsW1 baseW1 "p").2
        ("ISEL_X".toList ++ origSuffix) =
      some { name := "ISEL_X".toList ++ origSuffix, ty := 0, defn := 5 } :=
  C1_override_precedence fsW1 baseW1 patchW1 "p" ("ISEL_X".toList)
    { name := "ISEL_X".toList, ty := 0, defn := 9 }
    { name := "ISEL_X".toList, ty := 0, defn := 5 }
    (by decide) (by decide) (by decide) rfl rfl (by decide)
    (by decide) (by decide) (by decide) (by decide) (by decide)

/-- Unfolding of a run starting with an executablePath() call. -/
theorem runExeCalls_cons_path (impl : Nat → String) (t : Nat)
    (rest : List ExeCall) (c : ExeCache) :
    runExeCalls impl (ExeCall.pathCall t :: rest) c =
      (ExeCall.pathCall t, (executablePathCall impl t c).1) ::
        runExeCalls impl rest (executablePathCall impl t c).2 := rfl

/-- Unfolding of a run starting with an executableDir() call. -/
theorem runExeCalls_cons_dir (impl : Nat → String) (t : Nat)
    (rest : List ExeCall) (c : ExeCache) :
    runExeCalls impl (ExeCall.dirCall t :: rest) c =
      (ExeCall.dirCall t, (executableDirCall impl t c).1) ::
        runExeCalls impl rest (executableDirCall impl t c).2 := rfl

/-- A path entry contributes its value to the path results. -/
theorem pathResults_cons_path (t : Nat) (v : String)
    (rs : List (ExeCall × String)) :
    pathResults ((ExeCall.pathCall t, v) :: rs) = v :: pathResults rs := rfl

/-- A dir entry contributes nothing to the path results. -/
theorem pathResults_cons_dir (t : Nat) (v : String)
    (rs : List (ExeCall × String)) :
    pathResults ((ExeCall.dirCall t, v) :: rs) = pathResults rs := rfl

/-- A path entry contributes nothing to the dir results. -/
theorem dirResults_cons_path (t : Nat) (v : String)
    (rs : List (ExeCall × String)) :
    dirResults ((ExeCall.pathCall t, v) :: rs) = dirResults rs := rfl

/-- A dir entry contributes its value to the dir results. -/
theorem dirResults_cons_dir (t : Nat) (v : String)
    (rs : List (ExeCall × String)) :
    dirResults ((ExeCall.dirCall t, v) :: rs) = v :: dirResults rs := rfl

/-- executablePath() returns the cached value untouched once it is set. -/
theorem executablePathCall_cached {impl : Nat → String} {t : Nat}
    {c : ExeCache} {p : String} (h : c.pathCache = some p) :
    executablePathCall impl t c = (p, c) := by
  unfold executablePathCall
  rw [h]

/-- executableDir() returns the cached value untouched once it is set. -/
theorem executableDirCall_cached {impl : Nat → String} {t : Nat}
    {c : ExeCache} {d : String} (h : c.dirCache = some d) :
    executableDirCall impl t c = (d, c) := by
  unfold executableDirCall
  rw [h]

/-- executablePath() never touches the dir cache. -/
theorem executablePathCall_dirCache (impl : Nat → String) (t : Nat)
    (c : ExeCache) :
    (executablePathCall impl t c).2.dirCache = c.dirCache := by
  unfold executablePathCall
  rcases hcc : c.pathCache with _ | p <;> rfl

/-- Once the path cache holds p, every later executablePath() result is p. -/
theorem runExeCalls_path_stable (impl : Nat → String) :
    ∀ (calls : List ExeCall) (c : ExeCache) (p : String),
      c.pathCache = some p →
      ∀ r ∈ pathResults (runExeCalls impl calls c), r = p := by
  intro calls
  induction calls with
  | nil => intro c p hc r hr; cases hr
  | cons call rest ih =>
    intro c p hc r hr
    cases call with
    | pathCall t =>
      rw [runExeCalls_cons_path, executablePathCall_cached hc,
        pathResults_cons_path] at hr
      rcases List.mem_cons.mp hr with rfl | hr'
      · rfl
      · exact ih c p hc r hr'
    | dirCall t =>
      rcases hd : c.dirCache with _ | d
      · have hstep : executableDirCall impl t c =
            (parentPath p, { c with dirCache := some (parentPath p) }) := by
          unfold executableDirCall
          rw [hd, executablePathCall_cached hc]
        rw [runExeCalls_cons_dir, hstep, pathResults_cons_dir] at hr
        exact ih { c with dirCache := some (parentPath p) } p hc r hr
      · rw [runExeCalls_cons_dir, executableDirCall_cached hd,
          pathResults_cons_dir] at hr
        exact ih c p hc r hr

/-- Once the dir cache holds d, every later executableDir() result is d. -/
theorem runExeCalls_dir_stable (impl : Nat → String) :
    ∀ (calls : List ExeCall) (c : ExeCache) (d : String),
      c.dirCache = some d →
      ∀ r ∈ dirResults (runExeCalls impl calls c), r = d := by
  intro calls
  induction calls with
  | nil => intro c d hc r hr; cases hr
  | cons call rest ih =>
    intro c d hc r hr
    cases call with
    | pathCall t =>
      rw [runExeCalls_cons_path, dirResults_cons_path] at hr
      apply ih (executablePathCall impl t c).2 d ?_ r hr
      rw [executablePathCall_dirCache]
      exact hc
    | dirCall t =>
      rw [runExeCalls_cons_dir, executableDirCall_cached hc,
        dirResults_cons_dir] at hr
      rcases List.mem_cons.mp hr with rfl | hr'
      · rfl
      · exact ih c d hc r hr'

/-- Any two executablePath() results of one run agree, from any cache. -/
theorem runExeCalls_path_agree (impl : Nat → String) :
    ∀ (calls : List ExeCall) (c : ExeCache) (r s : String),
      r ∈ pathResults (runExeCalls impl calls c) →
      s ∈ pathResults (runExeCalls impl calls c) → r = s := by
  intro calls
  induction calls with
  | nil => intro c r s hr _; cases hr
  | cons call rest ih =>
    intro c r s hr hs
    rcases hp : c.pathCache with _ | p
    · cases call with
      | pathCall t =>
        have hstep : executablePathCall impl t c =
            (impl t, { c with pathCache := some (impl t) }) := by
          unfold executablePathCall
          rw [hp]
        rw [runExeCalls_cons_path, hstep, pathResults_cons_path] at hr hs
        have hstable := runExeCalls_path_stable impl rest
          { c with pathCache := some (impl t) } (impl t) rfl
        rcases List.mem_cons.mp hr with rfl | hr'
        · rcases List.mem_cons.mp hs with rfl | hs'
          · rfl
          · exact (hstable s hs').symm
        · rcases List.mem_cons.mp hs with rfl | hs'
          · exact hstable r hr'
          · rw [hstable r hr', hstable s hs']
      | dirCall t =>
        rcases hd : c.dirCache with _ | d
        · have hstep : executableDirCall impl t c =
              (parentPath (impl t),
                { pathCache := some (impl t)
                  dirCache := some (parentPath (impl t)) }) := by
            unfold executableDirCall
            rw [hd]
            unfold executablePathCall
            rw [hp]
          rw [runExeCalls_cons_dir, hstep, pathResults_cons_dir] at hr hs
          have hstable := runExeCalls_path_stable impl rest
            { pathCache := some (impl t)
              dirCache := some (parentPath (impl t)) } (impl t) rfl
          rw [hstable r hr, hstable s hs]
        · rw [runExeCalls_cons_dir, executableDirCall_cached hd,
            pathResults_cons_dir] at hr hs
          exact ih c r s hr hs
    · have h1 := runExeCalls_path_stable impl (call :: rest) c p hp
      rw [h1 r hr, h1 s hs]

/-- Any two executableDir() results of one run agree, from any cache. -/
theorem runExeCalls_dir_agree (impl : Nat → String) :
    ∀ (calls : List ExeCall) (c : ExeCache) (r s : String),
      r ∈ dirResults (runExeCalls impl calls c) →
      s ∈ dirResults (runExeCalls impl calls c) → r = s := by
  intro calls
  induction calls with
  | nil => intro c r s hr _; cases hr
  | cons call rest ih =>
    intro c r s hr hs
    cases call with
    | pathCall t =>
      rw [runExeCalls_cons_path, dirResults_cons_path] at hr hs
      exact ih (executablePathCall impl t c).2 r s hr hs
    | dirCall t =>
      rcases hd : c.dirCache with _ | d
      · have hstep : executableDirCall impl t c =
            (parentPath (executablePathCall impl t c).1,
              { (executablePathCall impl t c).2 with
                  dirCache :=
                    some (parentPath (executablePathCall impl t c).1) }) := by
          unfold executableDirCall
          rw [hd]
        rw [runExeCalls_cons_dir, hstep, dirResults_cons_dir] at hr hs
        have hstable := runExeCalls_dir_stable impl rest
          { (executablePathCall impl t c).2 with
              dirCache := some (parentPath (executablePathCall impl t c).1) }
          (parentPath (executablePathCall impl t c).1) rfl
        rcases List.mem_cons.mp hr with rfl | hr'
        · rcases List.mem_cons.mp hs with rfl | hs'
          · rfl
          · exact (hstable s hs').symm
        · rcases List.mem_cons.mp hs with rfl | hs'
          · exact hstable r hr'
          · rw [hstable r hr', hstable s hs']
      · have h1 := runExeCalls_dir_stable impl
          (ExeCall.dirCall t :: rest) c d hd
        rw [h1 r hr, h1 s hs]

/-- C10: within a single process run every executablePath() call returns the
same value and every executableDir() call returns the same value — the
statics cache the first computation — so the default hotpatch location
derived from the executable directory is identical across any two
evaluations, even when the underlying platform lookup would answer
differently at different times. -/
theorem C10_exe_path_stable (impl : Nat → String) (calls : List ExeCall)
    (r s : String) :
    (r ∈ pathResults (runExeCalls impl calls emptyCache) →
      s ∈ pathResults (runExeCalls impl calls emptyCache) → r = s) ∧
    (r ∈ dirResults (runExeCalls impl calls emptyCache) →
      s ∈ dirResults (runExeCalls impl calls emptyCache) → r = s) ∧
    (r ∈ dirResults (runExeCalls impl calls emptyCache) →
      s ∈ dirResults (runExeCalls impl calls emptyCache) →
      defaultHotpatchPath r = defaultHotpatchPath s) := by
  refine ⟨fun hr hs => runExeCalls_path_agree impl calls emptyCache r s hr hs,
    fun hr hs => runExeCalls_dir_agree impl calls emptyCache r s hr hs,
    fun hr hs => ?_⟩
  rw [runExeCalls_dir_agree impl calls emptyCache r s hr hs]

/-- Witness for C10: a run with a time-varying platform lookup still gives
one path value, one dir value and one default patch location. -/
theorem C10_exe_path_stable_witness :
    ("/opt/app/exe" ∈ pathResults (runExeCalls implW callsW emptyCache)) ∧
    ("/opt/app" ∈ dirResults (runExeCalls implW callsW emptyCache)) ∧
    defaultHotpatchPath "/opt/app" = defaultHotpatchPath "/opt/app" :=
  ⟨by decide, by decide,
    (C10_exe_path_stable implW callsW "/opt/app" "/opt/app").2.2
      (by decide) (by decide)⟩

end RemillHotpatch
